import Mathlib

/-!
Verification of the bridgescape linfile parser (`linparse.py`, `analyze.py`).

The Python sources are shallowly embedded: pure functions become Lean
functions; Python's runtime exceptions (AttributeError, IndexError, KeyError,
ValueError, AssertionError) are made explicit through `Except PyErr`; Python's
dynamically-typed values that can hold either an int or a str (the `made`
and `doubled` fields of `BridgeHand`) become the sum type `PyVal`.
Strings are embedded as `List Char`; the raw linfile (a tagged text record)
is embedded as a structure of optional, already-tokenised fields, one per
tag, mirroring what the regular-expression field extraction of the source
delivers to each downstream function.
-/

namespace Bridgescape

/-- Python runtime exceptions that the source can raise. -/
inductive PyErr where
  | attributeError
  | indexError
  | keyError
  | valueError
  | assertionError
  deriving DecidableEq, Repr

/-- A Python value that is either an `int` or a `str` (the source stores both
in the same field). -/
inductive PyVal where
  | int (n : Int)
  | str (s : String)
  deriving DecidableEq, Repr

instance {ε α : Type} [DecidableEq ε] [DecidableEq α] : DecidableEq (Except ε α) :=
  fun a b =>
    match a, b with
    | .ok x, .ok y =>
      if h : x = y then .isTrue (by rw [h]) else .isFalse (by simp [h])
    | .error x, .error y =>
      if h : x = y then .isTrue (by rw [h]) else .isFalse (by simp [h])
    | .ok _, .error _ => .isFalse (by simp)
    | .error _, .ok _ => .isFalse (by simp)

/-- A bid token / string from the linfile, embedded as a list of characters. -/
abbrev Token := List Char

/-- `PLAYERS = {0:'E', 1:'S', 2:'W', 3:'N'}` from linparse.py. -/
def PLAYERS : List Char := ['E', 'S', 'W', 'N']

/-- `SUITMAP = {'C':0, 'D':1, 'H':2, 'S':3}` as a partial lookup (a missing
key raises KeyError in Python; callers handle the `none` case accordingly). -/
def SUITMAP (c : Char) : Option Nat :=
  if c = 'C' then some 0
  else if c = 'D' then some 1
  else if c = 'H' then some 2
  else if c = 'S' then some 3
  else none

/-- `CARDMAP` of linparse.py: rank character to numeric rank 2..14. -/
def CARDMAP (c : Char) : Option Nat :=
  if c = '2' then some 2 else if c = '3' then some 3
  else if c = '4' then some 4 else if c = '5' then some 5
  else if c = '6' then some 6 else if c = '7' then some 7
  else if c = '8' then some 8 else if c = '9' then some 9
  else if c = 'T' then some 10 else if c = 'J' then some 11
  else if c = 'Q' then some 12 else if c = 'K' then some 13
  else if c = 'A' then some 14 else none

/-- `rindex(list, elt)` of linparse.py:
`len(list) - list[::-1].index(elt) - 1`, the index of the last occurrence.
`list.index` raises ValueError when the element is absent, hence `Option`. -/
def rindex {α : Type} [DecidableEq α] (l : List α) (elt : α) : Option Nat :=
  let j := l.reverse.indexOf elt
  if j < l.reverse.length then some (l.length - j - 1) else none

/-- `Card`: `suit` 0-3, `rank` 2-14.  Python equality compares
(suit, rank) only; `suitname`/`rankname` are derived and carry no extra
information, so they are not part of the embedded state. -/
structure Card where
  suit : Nat
  rank : Nat
  deriving DecidableEq, Repr

/-- `Card.compare(self, other, sorder)` of linparse.py: a Python-2 style cmp.
`sorder.index(self.suit)` in Python raises for a suit outside `sorder`;
`List.indexOf` then returns `sorder.length`, which is only reachable outside
the hypotheses of every theorem below (all suits are required to lie in
`sorder`). -/
def Card.compare (self other : Card) (sorder : List Nat) : Int :=
  let self_srank := sorder.indexOf self.suit
  let other_srank := sorder.indexOf other.suit
  if self = other then 0
  else if self_srank < other_srank then -1
  else if self_srank = other_srank ∧ self.rank < other.rank then -1
  else 1

/-- `Hand`: a wrapper around an ordered list of cards. -/
structure Hand where
  cards : List Card
  deriving DecidableEq, Repr

/-- The comparison relation induced by `Card.compare` (cmp result ≤ 0),
which is what `cmp_to_key` hands to Python's `sorted`. -/
def cmpLe (sorder : List Nat) (x y : Card) : Prop :=
  Card.compare x y sorder ≤ 0

instance (sorder : List Nat) : DecidableRel (cmpLe sorder) := by
  intro x y; unfold cmpLe; infer_instance

/-- `Hand.sort(self, sorder)` of linparse.py: builds a NEW `Hand` from
`sorted(self, key=cmp_to_key(...))`; `sorted` allocates a fresh list, embedded
here by a comparison-based sort. -/
def Hand.sort (h : Hand) (sorder : List Nat) : Hand :=
  ⟨List.insertionSort (cmpLe sorder) h.cards⟩

/-- The `Hand.sort` method viewed as a state transformer on the receiver
object: it returns the method's result together with the receiver's state
after the call.  The body only reads `self` (Python's `sorted` does not
mutate its argument), so the post-state is the unchanged receiver. -/
def Hand.sortM (h : Hand) (sorder : List Nat) : Hand × Hand :=
  (h.sort sorder, h)

/-- `full_hand()` of linparse.py: the 52-card deck, suits 0..3, ranks 2..14. -/
def full_hand : Hand :=
  ⟨(List.range 4).flatMap fun suit => (List.range' 2 13).map fun rank => ⟨suit, rank⟩⟩

/-- `convert_card(lincard)` of linparse.py: 2-char lin notation to a Card;
a bad suit or rank character raises KeyError. -/
def convert_card (lincard : Token) : Except PyErr Card :=
  match lincard.get? 0, lincard.get? 1 with
  | some ls, some lv =>
    match SUITMAP ls, CARDMAP lv with
    | some s, some v => .ok ⟨s, v⟩
    | _, _ => .error .keyError
  | _, _ => .error .indexError

/-- One step of the scanning loop of `get_trick_winner`: given the current
`(winner, top)` pair and the next direction, replace the pair when
`(cards[dir].suit == top.suit) & (cards[dir].rank > top.rank)` or, failing
that, when `(cards[dir].suit == trumpsuit) & (top.suit is not trumpsuit)`
(the suit being an interned small int, `is` coincides with `==`). -/
def trickStep (cards : Char → Option Card) (trumpsuit : Option Nat)
    (acc : Char × Card) (dir : Char) : Except PyErr (Char × Card) :=
  match cards dir with
  | none => .error .keyError
  | some cd =>
    if cd.suit = acc.2.suit ∧ acc.2.rank < cd.rank then .ok (dir, cd)
    else if some cd.suit = trumpsuit ∧ ¬ some acc.2.suit = trumpsuit then .ok (dir, cd)
    else .ok acc

/-- Lines 224-227 of `get_trick_winner`: `trumpsuit = None` for a no-trump
contract, otherwise `SUITMAP[trump]` (KeyError on an unknown character). -/
def trumpSuitOf (trump : Char) : Except PyErr (Option Nat) :=
  if trump = 'N' then .ok none
  else match SUITMAP trump with
    | some s => .ok (some s)
    | none => .error .keyError

/-- `get_trick_winner(cards, leader, trump)` of linparse.py.  `cards` is the
trick dict (direction to card); a missing direction raises KeyError, a trump
character outside SUITMAP raises KeyError, a leader outside 'ESWN' makes
`suitlist.remove(leader)` raise ValueError.  The local `ledsuit` of the
source is bound but never consulted by the scan (the scan compares against
`top.suit`). -/
def get_trick_winner (cards : Char → Option Card) (leader : Char) (trump : Char) :
    Except PyErr (Char × Card) :=
  match trumpSuitOf trump with
  | .error e => .error e
  | .ok trumpsuit =>
    if leader ∈ (['E', 'S', 'W', 'N'] : List Char) then
      let suitlist := (['E', 'S', 'W', 'N'] : List Char).erase leader
      match cards leader with
      | none => .error .keyError
      | some top => suitlist.foldlM (trickStep cards trumpsuit) (leader, top)
    else .error .valueError

/-- `rotate_to(dir, offset)` of linparse.py on the default list `'ESWN'`:
`suits.index(dir)` raises ValueError when `dir` is absent (including the
`None` that `parse_linfile` passes for a passed-out board, hence the
`Option Char` argument); then the list is rotated by slicing. -/
def rotate_to (dir : Option Char) (offset : Nat) : Except PyErr (List Char) :=
  match dir with
  | none => .error .valueError
  | some d =>
    if d ∈ (['E', 'S', 'W', 'N'] : List Char) then
      let rotation := (['E', 'S', 'W', 'N'] : List Char).indexOf d + offset
      .ok (PLAYERS.drop rotation ++ PLAYERS.take rotation)
    else .error .valueError

/-- Python's `tok in 'drp'` — substring membership, satisfied by `''`, `'d'`,
`'r'`, `'p'`, `'dr'`, `'rp'` and `'drp'`. -/
def inDRP (t : Token) : Bool := decide (t <:+: ['d', 'r', 'p'])

/-- Python's `tok in 'dr'` (the doubles test inside the peel loop). -/
def inDR (t : Token) : Bool := decide (t <:+: ['d', 'r'])

/-- The condition of the peel loop of `get_bids`:
`(bids[-i] in 'drp') or (bids[-i] == 'p!')`. -/
def peelable (t : Token) : Bool := inDRP t || t = ['p', '!']

/-- `get_snd(str)` of `get_bids`: `None` for a length-1 token, otherwise
`str[1]` (which raises IndexError on the empty token). -/
def get_snd (t : Token) : Except PyErr (Option Char) :=
  if t.length = 1 then .ok none
  else match t.get? 1 with
    | some c => .ok (some c)
    | none => .error .indexError

/-- The slice `bidsuits[cindex::-2]` of `get_bids`: elements at positions
`cindex, cindex-2, ...` down to 0 or 1.  (In `get_bids`, `cindex` is the
index of an element of the list, so it is always in range.) -/
def sliceBackTwo {α : Type} : List α → Nat → List α
  | l, 0 => match l.get? 0 with | none => [] | some x => [x]
  | l, 1 => match l.get? 1 with | none => [] | some x => [x]
  | l, (i + 2) =>
    match l.get? (i + 2) with
    | none => []
    | some x => x :: sliceBackTwo l i

/-- The outcome of `get_bids`: the `(bids, None, 'PO')` passout triple, the
`(bids, declarer, (contract, len(doubles)))` triple, or an uncaught Python
exception. -/
inductive BidsRes where
  | passout (bids : List Token)
  | res (bids : List Token) (declarer : Char) (contract : Token) (doubled : Nat)
  | exc (e : PyErr)
  deriving DecidableEq, Repr

/-- `get_bids(lin, dealer)` of linparse.py, taking the annotation-stripped
bid token list that the `mb|...|pg` extraction and the `re.sub` cleanup
produce.  (The caller maps the regex's no-match case to `None` before this
body runs; see `getBidsLin`.)  Faithful points: `BID_PLAYERS` is computed
before the passout check; the passout check tests only the length and the
FIRST token; the contract is found by peeling `p`/`d`/`r`/`p!` tokens from
the end (an IndexError when every token peels); `cindex` is
`bids.index(contract)`, the FIRST occurrence of the contract token;
`csuit = contract[1]` raises IndexError on a 1-character contract token. -/
def getBidsCore (bids : List Token) (BID_PLAYERS : List Char) : BidsRes :=
  if bids.length = 4 ∧ bids.headD [] = ['p'] then .passout bids
  else
    match bids.reverse.findIdx? (fun t => ! peelable t) with
    | none => .exc .indexError
    | some j =>
      let contract := bids.reverse.getD j []
      let doubles := (bids.reverse.take j).countP inDR
      match contract.get? 1 with
      | none => .exc .indexError
      | some csuit =>
        let cindex := bids.indexOf contract
        match bids.mapM get_snd with
        | .error e => .exc e
        | .ok bidsuits =>
          match rindex (sliceBackTwo bidsuits cindex) (some csuit) with
          | none => .exc .valueError
          | some firstmatch =>
            let declarer :=
              if firstmatch % 2 = 0 then BID_PLAYERS.getD (cindex % 4) ' '
              else BID_PLAYERS.getD ((((cindex : Int) - 2) % 4)).toNat ' '
            .res bids declarer contract doubles

def get_bids (bids : List Token) (dealer : Char) : BidsRes :=
  match rotate_to (some dealer) 0 with
  | .error e => .exc e
  | .ok BID_PLAYERS => getBidsCore bids BID_PLAYERS

/-- `get_vulnerability`'s dispatch on the single character captured from the
`sv|` tag (the fall-through returns Python `None`). -/
def get_vulnerability (vuln_str : Char) : Option String :=
  if vuln_str ∈ (['N', 'n', 'S', 's'] : List Char) then some "NS"
  else if vuln_str ∈ (['E', 'e', 'W', 'w'] : List Char) then some "WE"
  else if vuln_str ∈ (['o', 'O', '0'] : List Char) then some "none"
  else if vuln_str ∈ (['B', 'b'] : List Char) then some "both"
  else none

/-- One trick record of the `play` list: the dict with the `'lead'` key and
one direction-to-card entry per play consumed. -/
structure TrickR where
  lead : Char
  plays : List (Char × Card)
  deriving DecidableEq, Repr

/-- Dict lookup on a trick's plays (first binding wins; the directions bound
in one trick are pairwise distinct). -/
def TrickR.lookup (t : TrickR) (d : Char) : Option Card :=
  (t.plays.find? (fun p => p.1 = d)).map (·.2)

/-- The trick loop of `get_play`, one iteration per element of `play_str`.
Each trick of the play blob arrives as its list of already-converted cards
(`trick.split('|pc|')` then `convert_card`).  A trick with fewer than four
cards records only the plays present and exits the loop; otherwise the four
cards are bound to the rotation order, the trick winner is computed with
`contract[1]` as the trump character (IndexError on a short contract
string), the order is rotated to the winner, and the declaring side's tally
is incremented when the winner is the declarer or the dummy. -/
def playLoop (declarer : Option Char) (dummy : Char) (contract : Token) :
    List (List Card) → List Char → List TrickR → Int →
    Except PyErr (List TrickR × Int)
  | [], _, play, made => .ok (play, made)
  | trick :: rest, order, play, made =>
    let lead := order.headD ' '
    if trick.length < 4 then
      .ok (play ++ [⟨lead, (order.take trick.length).zip trick⟩], made)
    else
      let t : TrickR := ⟨lead, order.zip trick⟩
      match contract.get? 1 with
      | none => .error .indexError
      | some trumpChar =>
        match get_trick_winner t.lookup lead trumpChar with
        | .error e => .error e
        | .ok wt =>
          match rotate_to (some wt.1) 0 with
          | .error e => .error e
          | .ok order' =>
            let made' := if some wt.1 = declarer ∨ wt.1 = dummy then made + 1 else made
            playLoop declarer dummy contract rest order' (play ++ [t]) made'

/-- `get_play(lin, declarer, contract)` of linparse.py, taking the trick
card lists extracted from the play blob.  `order = rotate_to(declarer, 1)`
raises ValueError when `declarer` is `None` (a passed-out board); the dummy
is the second seat of the initial order.  No bound on the number of tricks
is imposed anywhere in the loop. -/
def get_play (tricks : List (List Card)) (declarer : Option Char)
    (contract : Token) : Except PyErr (List TrickR × Int) :=
  match rotate_to declarer 1 with
  | .error e => .error e
  | .ok order =>
    let dummy := order.getD 1 ' '
    playLoop declarer dummy contract tricks order [] 0

/-- The players mapping built by `get_players` (South, West, North, East). -/
structure PlayersT where
  s : String
  w : String
  n : String
  e : String
  deriving DecidableEq, Repr

/-- A raw linfile record, embedded as the fields its tag grammar can carry.
Each component is what the corresponding regular-expression extraction in
the source captures, already tokenised; `none` means the tag (or the regex
group) is absent from the record.
 * `pn`: the comma-split payload of the `pn|` tag.
 * `md`: the dealer digit and the three explicit hands (South, West, North)
   of the `md|` tag, as converted card lists.
 * `bids`: the annotation-stripped bid tokens of the `mb|...|pg` blob.
 * `sv`: the single character of the `sv|` tag.
 * `pc`: the per-trick converted card lists of the `pc|...` play blob
   (`none` also covers the claim-only record whose regex match leaves
   group 1 empty — `.group(1)` is `None` and `.split` raises just as for a
   missing match).
 * `mc`: the digit string of the `mc|` claim marker. -/
structure Lin where
  pn : Option (List String)
  md : Option (Nat × List Card × List Card × List Card)
  bids : Option (List Token)
  sv : Option Char
  pc : Option (List (List Card))
  mc : Option String

/-- `get_players(lin)`: `None` when the `pn|` tag is missing, otherwise the
four comma-separated names (fewer than four raises IndexError). -/
def get_players (lin : Lin) : Except PyErr (Option PlayersT) :=
  match lin.pn with
  | none => .ok none
  | some p_str =>
    match p_str.get? 0, p_str.get? 1, p_str.get? 2, p_str.get? 3 with
    | some s, some w, some n, some e => .ok (some ⟨s, w, n, e⟩)
    | _, _, _, _ => .error .indexError

/-- `get_dealer(lin)`: the digit after the `md|` tag through
`PLAYERS[dealer_no % 4]`.  A record without that tag makes `re.search`
return `None` and `.group(1)` raise AttributeError — there is no graceful
path here. -/
def get_dealer (lin : Lin) : Except PyErr Char :=
  match lin.md with
  | none => .error .attributeError
  | some (dealer_no, _, _, _) => .ok (PLAYERS.getD (dealer_no % 4) ' ')

/-- The East-hand recovery loop of `get_initial_hands`: remove every card of
the three known hands from the remaining deck, asserting (AssertionError)
that each card is still present at removal time. -/
def removeAll (deck : List Card) : List Card → Option (List Card)
  | [] => some deck
  | c :: rest => if c ∈ deck then removeAll (deck.erase c) rest else none

/-- `get_initial_hands(lin)`: `None` when the `md|` tag is missing,
otherwise the three explicit hands plus East recovered as the deck
complement; a duplicate card aborts with AssertionError. -/
def get_initial_hands (lin : Lin) :
    Except PyErr (Option (Hand × Hand × Hand × Hand)) :=
  match lin.md with
  | none => .ok none
  | some (_, hS, hW, hN) =>
    match removeAll full_hand.cards (hS ++ hW ++ hN) with
    | none => .error .assertionError
    | some hE => .ok (some (⟨hS⟩, ⟨hW⟩, ⟨hN⟩, ⟨hE⟩))

/-- `get_bids` at the orchestrator boundary: `None` when the `mb|...|pg`
blob is missing, otherwise the result of the bid analysis (whose internal
exceptions propagate). -/
def getBidsLin (lin : Lin) (dealer : Char) : Except PyErr (Option BidsRes) :=
  match lin.bids with
  | none => .ok none
  | some toks =>
    match get_bids toks dealer with
    | .exc e => .error e
    | r => .ok (some r)

/-- `get_vulnerability(lin)`: a record without the `sv|` tag makes
`.group(1)` raise AttributeError. -/
def getVulnerabilityLin (lin : Lin) : Except PyErr (Option String) :=
  match lin.sv with
  | none => .error .attributeError
  | some c => .ok (get_vulnerability c)

/-- The `BridgeHand` aggregate of linparse.py.  `made` and `doubled` carry
`PyVal` because the source stores an `int` on one path and a `str` on
another (`made = claim_str.group(1)`; the passed-out unpacking of `'PO'`
binds `doubled = 'O'`). -/
structure BridgeHand where
  players : PlayersT
  dealer : Char
  hands : Hand × Hand × Hand × Hand
  bids : List Token
  play : List TrickR
  contract : Token
  declarer : Option Char
  doubled : PyVal
  vuln : Option String
  made : PyVal
  claimed : Bool
  deriving DecidableEq, Repr

/-- `parse_linfile(linfile)` of linparse.py over an already-read record.
The sequence is faithful to the source: `get_players`, then `get_dealer`
(which raises before the graceful `None` check can run when the `md|` tag
is missing), `get_initial_hands`, `get_bids`; only then the
`if not(players and hands and bids_triple): return None` guard; then
`get_vulnerability` (raising when `sv|` is missing), `get_play` (raising
when the play blob is missing, or when the board was passed out — unpacking
`'PO'` gives `contract = 'P'`, `doubled = 'O'`, `declarer = None`), and
finally the claim-marker override, which stores the captured digit STRING
into `made` and sets `claimed`. -/
def parse_linfile (lin : Lin) : Except PyErr (Option BridgeHand) := do
  let players ← get_players lin
  let dealer ← get_dealer lin
  let hands ← get_initial_hands lin
  let bids_triple ← getBidsLin lin dealer
  match players, hands, bids_triple with
  | some ps, some hs, some bt =>
    let (bids, declarer, contract, doubled) :=
      match bt with
      | .passout bs => (bs, none, ['P'], PyVal.str "O")
      | .res bs d c n => (bs, some d, c, PyVal.int n)
      | .exc _ => ([], none, [], PyVal.int 0)
    let vuln ← getVulnerabilityLin lin
    let pm ← match lin.pc with
      | none => throw PyErr.attributeError
      | some tricks => get_play tricks declarer contract
    match lin.mc with
    | some claim_str =>
      pure (some ⟨ps, dealer, hs, bids, pm.1, contract, declarer, doubled,
        vuln, .str claim_str, true⟩)
    | none =>
      pure (some ⟨ps, dealer, hs, bids, pm.1, contract, declarer, doubled,
        vuln, .int pm.2, false⟩)
  | _, _, _ => pure none

/-- `partner(pos)` of analyze.py: two seats onward in `['E','S','W','N']`. -/
def partner (pos : Char) : Char :=
  let dirs : List Char := ['E', 'S', 'W', 'N']
  dirs.getD ((dirs.indexOf pos + 2) % 4) ' '

/-- `hcp(hand, shortness)` of analyze.py.  Faithful detail: the branch
computes shortness points `sps` from the suit multiplicities and ALSO binds
`void = (4 - len(counts)) * 3`, but the function returns
`hcps + sps + voids` where `voids` is the variable initialised to 0 at the
top — the computed `void` value is never added. -/
def hcp (hand : List Card) (shortness : Bool) : Nat :=
  let voids := 0
  let sps :=
    if shortness then
      let vals := hand.map (·.suit)
      let counts := vals.dedup.map (fun s => vals.count s)
      let void := (4 - counts.length) * 3
      let _ := void
      (((counts.filter (· < 3)).map (fun v => [3, 2, 1].getD v 0))).sum
    else 0
  let hcps :=
    (((hand.map (·.rank)).filter (10 < ·)).map (fun x => [1, 2, 3, 4].getD (x - 11) 0)).sum
  hcps + sps + voids

/-! ## Specification-side definitions

These definitions follow the WORDS of the specification / claims, to be
compared with the embedded source functions above. -/

/-- Spec side (claim C3): "a card beats the current best if it is in the
current best's situation-relevant suit and outranks it, or if it is a trump
and the current best is not a trump". -/
def specBeats (trumpsuit : Option Nat) (best c : Card) : Prop :=
  (c.suit = best.suit ∧ best.rank < c.rank) ∨
    (some c.suit = trumpsuit ∧ some best.suit ≠ trumpsuit)

instance (trumpsuit : Option Nat) : DecidableRel (specBeats trumpsuit) := by
  intro x y; unfold specBeats; infer_instance

/-- Spec side (claim C3): scan the other three plays, updating the current
best whenever the candidate beats it. -/
def specScan (trumpsuit : Option Nat) (cards : Char → Option Card)
    (others : List Char) (start : Char × Card) : Char × Card :=
  others.foldl
    (fun acc dir =>
      match cards dir with
      | none => acc
      | some cd => if specBeats trumpsuit acc.2 cd then (dir, cd) else acc)
    start

/-- Spec side (claim C1): the player who makes bid number `k` (0-based) of
an auction dealt by `dealer` — the seat `k` places clockwise after the
dealer in the East-South-West-North cycle. -/
def seatAt (dealer : Char) (k : Nat) : Char :=
  (['E', 'S', 'W', 'N'] : List Char).getD
    (((['E', 'S', 'W', 'N'] : List Char).indexOf dealer + k) % 4) ' '

/-- Linear search for the least `n` in `[cur, cur + fuel)` satisfying
`pred`. -/
def leastFrom (pred : Nat → Bool) : Nat → Nat → Option Nat
  | _, 0 => none
  | cur, fuel + 1 => if pred cur then some cur else leastFrom pred (cur + 1) fuel

/-- Spec side (claim C1): among the bids of the partnership that placed the
contract-setting bid — the bids an even number of steps before position
`cpos` — the position of the earliest one whose strain (second character)
equals the contract's strain. -/
def earliestStrainPos (bids : List Token) (cpos : Nat) (csuit : Char) : Option Nat :=
  leastFrom
    (fun p => ((cpos - p) % 2 = 0 : Bool) && ((bids.getD p []).get? 1 = some csuit : Bool))
    0 (cpos + 1)

/-- Spec side (claim C1): the declarer by partnership parity.  If the
earliest strain-matching partnership bid lies an even number of
partnership-turns before the contract-setting bid, the declarer is the
player who made the contract-setting bid; otherwise that player's
partner. -/
def specDeclarer (bids : List Token) (dealer : Char) (cpos : Nat) (csuit : Char) :
    Option Char :=
  match earliestStrainPos bids cpos csuit with
  | none => none
  | some p =>
    if ((cpos - p) / 2) % 2 = 0 then some (seatAt dealer cpos)
    else some (partner (seatAt dealer cpos))

/-- Spec side (claim C9): the 4/3/2/1 high-card total of a hand. -/
def specHighCard (hand : List Card) : Nat :=
  (hand.map (fun c =>
    if c.rank = 14 then 4 else if c.rank = 13 then 3
    else if c.rank = 12 then 2 else if c.rank = 11 then 1 else 0)).sum

/-- Spec side (claim C9): shortness points — 3 per void suit, 2 per
singleton suit, 1 per doubleton suit, over the four suits. -/
def specShortness (hand : List Card) : Nat :=
  (([0, 1, 2, 3] : List Nat).map (fun s =>
    let k := (hand.filter (fun c => c.suit = s)).length
    if k = 0 then 3 else if k = 1 then 2 else if k = 2 then 1 else 0)).sum

/-- Spec side (claim C9): high-card points, optionally plus shortness. -/
def specHcp (hand : List Card) (shortness : Bool) : Nat :=
  specHighCard hand + if shortness then specShortness hand else 0

/-- The four cyclic rotations of the direction list `['E','S','W','N']` —
the possible values of the `order` variable inside `get_play`. -/
def isESWNrot (o : List Char) : Prop :=
  o = ['E', 'S', 'W', 'N'] ∨ o = ['S', 'W', 'N', 'E'] ∨
  o = ['W', 'N', 'E', 'S'] ∨ o = ['N', 'E', 'S', 'W']

/-! ## Concrete inputs used by the evaluations and witnesses below -/

/-- The auction `1H, pass, 2H, pass, pass, pass` as bid tokens. -/
def exampleBids : List Token :=
  [['1', 'H'], ['p'], ['2', 'H'], ['p'], ['p'], ['p']]

/-- A four-token sequence that starts with a pass but contains a real bid. -/
def bidsStartPass : List Token := [['p'], ['1', 'H'], ['p'], ['p']]

/-- The example trick of the spec: East ♣2, South ♣A, West ♦K, North ♣5
(suits: C=0, D=1; ranks: 2, A=14, K=13, 5). -/
def exampleTrick (d : Char) : Option Card :=
  if d = 'E' then some ⟨0, 2⟩
  else if d = 'S' then some ⟨0, 14⟩
  else if d = 'W' then some ⟨1, 13⟩
  else if d = 'N' then some ⟨0, 5⟩
  else none

/-- A complete trick (four spade cards, ace high in first position). -/
def trick4S : List Card := [⟨3, 14⟩, ⟨3, 13⟩, ⟨3, 12⟩, ⟨3, 11⟩]

/-- A play blob of FOURTEEN complete tricks. -/
def tricks14 : List (List Card) := List.replicate 14 trick4S

/-- A minimal fully-parseable record: four players, dealer digit 1 (South),
three empty explicit hands, auction `1C, p, p, p`, vulnerability `o`, a
single one-card trick in the play blob, and claim marker `9`. -/
def linClaimed : Lin :=
  { pn := some ["a", "b", "c", "d"]
    md := some (1, [], [], [])
    bids := some [['1', 'C'], ['p'], ['p'], ['p']]
    sv := some 'o'
    pc := some [[⟨0, 14⟩]]
    mc := some "9" }

/-- The same record without the claim marker. -/
def linUnclaimed : Lin := { linClaimed with mc := none }

/-- The same record with the dealer/deal (`md|`) tag missing. -/
def linNoMd : Lin := { linClaimed with md := none, mc := none }

/-- The same record with the vulnerability (`sv|`) tag missing. -/
def linNoSv : Lin := { linClaimed with sv := none, mc := none }

/-- The same record with the play (`pc|`) blob missing. -/
def linNoPc : Lin := { linClaimed with pc := none, mc := none }

/-- A record whose `md|` tag carries three empty explicit hands. -/
def linEmptyHands : Lin :=
  { pn := none, md := some (1, [], [], []), bids := none, sv := none
    pc := none, mc := none }

/-- Thirteen clubs: a hand with three void suits and no shortness otherwise. -/
def clubs13 : List Card := (List.range' 2 13).map fun r => ⟨0, r⟩

/-- A 13-card hand with a club singleton, a diamond doubleton, a ten-card
heart suit and a spade void; its only face card is the heart jack. -/
def shortHand : List Card :=
  [⟨0, 2⟩, ⟨1, 2⟩, ⟨1, 3⟩,
   ⟨2, 2⟩, ⟨2, 3⟩, ⟨2, 4⟩, ⟨2, 5⟩, ⟨2, 6⟩, ⟨2, 7⟩, ⟨2, 8⟩, ⟨2, 9⟩, ⟨2, 10⟩, ⟨2, 11⟩]

/-! ## Theorems -/

/-- C7: the claim says the 'E'/'e'/'W'/'w' vulnerability markers map to
"EW"; the code returns "WE" for all four (while `get_vulnerability`'s own
docstring and the `BridgeHand` docstring both promise 'EW').  The other
markers map as claimed. -/
theorem c7_vulnerability_returns_WE_not_EW :
    get_vulnerability 'E' = some "WE" ∧ get_vulnerability 'e' = some "WE" ∧
    get_vulnerability 'W' = some "WE" ∧ get_vulnerability 'w' = some "WE" ∧
    ("WE" : String) ≠ "EW" ∧
    get_vulnerability 'N' = some "NS" ∧ get_vulnerability 'n' = some "NS" ∧
    get_vulnerability 'S' = some "NS" ∧ get_vulnerability 's' = some "NS" ∧
    get_vulnerability 'O' = some "none" ∧ get_vulnerability '0' = some "none" ∧
    get_vulnerability 'B' = some "both" ∧ get_vulnerability 'b' = some "both" := by
  decide

/-- C9: `hcp` with shortness enabled drops the void points — the source
binds `void = (4 - len(counts))*3` but returns `hcps+sps+voids` with the
`voids` variable still 0.  On thirteen clubs (three voids) the code returns
the bare 10 high-card points where the claimed scale gives 19; on a hand
with a singleton, a doubleton and one void the code returns high cards + 3
where the claimed scale gives high cards + 6.  Singleton and doubleton
points themselves, and the shortness-disabled path, agree with the claim. -/
theorem c9_hcp_void_points_dropped :
    hcp clubs13 true = 10 ∧ specHcp clubs13 true = 19 ∧
    hcp shortHand true = 4 ∧ specHcp shortHand true = 7 ∧
    hcp clubs13 false = 10 ∧ specHcp clubs13 false = 10 ∧
    hcp shortHand false = 1 ∧ specHcp shortHand false = 1 := by
  decide

/-- C5: on a record with the claim marker `mc|9|`, the assembled aggregate
has `claimed = true`, but `made` is assigned `claim_str.group(1)` — the
digit STRING "9", not the integer 9 that the claim (and the `BridgeHand`
docstring, `made: int`) require.  Without the marker, `claimed = false`
and `made` is the integer replay tally. -/
theorem c5_claim_override_stores_string :
    (parse_linfile linClaimed).map (Option.map fun bh => (bh.claimed, bh.made)) =
      .ok (some (true, PyVal.str "9")) ∧
    (parse_linfile linUnclaimed).map (Option.map fun bh => (bh.claimed, bh.made)) =
      .ok (some (false, PyVal.int 0)) ∧
    PyVal.str "9" ≠ PyVal.int 9 := by
  decide

/-- C4: a record lacking the dealer/deal tag (`md|`), the vulnerability tag
(`sv|`), or the play tag (`pc|`) does NOT yield the empty result: in each
case `re.search` returns `None`, `.group(1)` raises AttributeError, and the
exception propagates out of `parse_linfile` — there is no try/except and
the graceful `return None` path is never reached. -/
theorem c4_missing_tags_raise :
    parse_linfile linNoMd = .error .attributeError ∧
    parse_linfile linNoSv = .error .attributeError ∧
    parse_linfile linNoPc = .error .attributeError ∧
    (Except.error .attributeError : Except PyErr (Option BridgeHand)) ≠ .ok none := by
  decide

/-- C6 counterexample: the passout check of `get_bids` tests only
`len(bids) == 4 and bids[0] == 'p'`, so the four-token sequence
`p, 1H, p, p` — which contains a non-pass token — is reported as passed
out, contradicting the claim that no sequence containing a non-pass token
is reported as passed out. -/
theorem c6_counterexample_nonpass_reported_passout :
    get_bids bidsStartPass 'E' = .passout bidsStartPass ∧
    ['1', 'H'] ∈ bidsStartPass ∧ (['1', 'H'] : Token) ≠ ['p'] := by
  decide

/-- C8 counterexample: `get_play` imposes no bound on the trick count — a
play blob encoding fourteen complete tricks is replayed into a play list of
fourteen tricks with no error of any kind. -/
theorem c8_counterexample_fourteen_tricks_accepted :
    (get_play tricks14 (some 'S') ['1', 'S']).map (fun pm => pm.1.length) =
      .ok 14 ∧ 13 < 14 := by
  decide

/-- C6 amended: `get_bids` reports a pass-out exactly when the token list
has length four and its FIRST token is `p` — every all-pass four-token
auction is covered, but so is any four-token auction that merely begins
with a pass. -/
theorem c6_passout_iff_len4_first_pass :
    ∀ (bids : List Token) (dealer : Char),
      dealer ∈ (['E', 'S', 'W', 'N'] : List Char) →
      ((∃ bs, get_bids bids dealer = .passout bs) ↔
        (bids.length = 4 ∧ bids.headD [] = ['p'])) := by
  intro bids dealer hd
  have hbp : rotate_to (some dealer) 0 =
      .ok (PLAYERS.drop ((['E', 'S', 'W', 'N'] : List Char).indexOf dealer) ++
        PLAYERS.take ((['E', 'S', 'W', 'N'] : List Char).indexOf dealer)) := by
    simp [rotate_to, hd]
  have hcore : get_bids bids dealer = getBidsCore bids
      (PLAYERS.drop ((['E', 'S', 'W', 'N'] : List Char).indexOf dealer) ++
        PLAYERS.take ((['E', 'S', 'W', 'N'] : List Char).indexOf dealer)) := by
    rw [get_bids, hbp]
  rw [hcore]
  constructor
  · rintro ⟨bs, hbs⟩
    by_contra hc
    simp only [getBidsCore] at hbs
    rw [if_neg hc] at hbs
    split at hbs
    · exact BidsRes.noConfusion hbs
    split at hbs
    · exact BidsRes.noConfusion hbs
    split at hbs
    · exact BidsRes.noConfusion hbs
    split at hbs
    · exact BidsRes.noConfusion hbs
    · exact BidsRes.noConfusion hbs
  · intro hc
    exact ⟨bids, by rw [getBidsCore, if_pos hc]⟩

/-- C6 witness: the amended theorem applied to the all-pass auction dealt
by East. -/
theorem c6_passout_iff_len4_first_pass_witness :
    ∃ bs, get_bids [['p'], ['p'], ['p'], ['p']] 'E' = .passout bs :=
  (c6_passout_iff_len4_first_pass [['p'], ['p'], ['p'], ['p']] 'E'
    (by decide)).mpr (by decide)

/-! ### Replay infrastructure (claims C8 and C3) -/

theorem rotate_to_zero_rot {d : Char} (hd : d ∈ (['E', 'S', 'W', 'N'] : List Char)) :
    ∃ o, rotate_to (some d) 0 = .ok o ∧ isESWNrot o := by
  fin_cases hd
  · exact ⟨_, rfl, Or.inl rfl⟩
  · exact ⟨_, rfl, Or.inr (Or.inl rfl)⟩
  · exact ⟨_, rfl, Or.inr (Or.inr (Or.inl rfl))⟩
  · exact ⟨_, rfl, Or.inr (Or.inr (Or.inr rfl))⟩

theorem rotate_to_one_rot {d : Char} (hd : d ∈ (['E', 'S', 'W', 'N'] : List Char)) :
    ∃ o, rotate_to (some d) 1 = .ok o ∧ isESWNrot o := by
  fin_cases hd
  · exact ⟨_, rfl, Or.inr (Or.inl rfl)⟩
  · exact ⟨_, rfl, Or.inr (Or.inr (Or.inl rfl))⟩
  · exact ⟨_, rfl, Or.inr (Or.inr (Or.inr rfl))⟩
  · exact ⟨_, rfl, Or.inl rfl⟩

theorem isESWNrot_mem {o : List Char} (h : isESWNrot o) (d : Char) :
    d ∈ o ↔ d ∈ (['E', 'S', 'W', 'N'] : List Char) := by
  rcases h with rfl | rfl | rfl | rfl <;> simp [List.mem_cons] <;> tauto

theorem isESWNrot_length {o : List Char} (h : isESWNrot o) : o.length = 4 := by
  rcases h with rfl | rfl | rfl | rfl <;> rfl

theorem isESWNrot_headD_mem {o : List Char} (h : isESWNrot o) :
    o.headD ' ' ∈ (['E', 'S', 'W', 'N'] : List Char) := by
  rcases h with rfl | rfl | rfl | rfl <;> decide

theorem isESWNrot_headD_mem_self {o : List Char} (h : isESWNrot o) :
    o.headD ' ' ∈ o := by
  rcases h with rfl | rfl | rfl | rfl <;> decide

/-- A complete trick binds a card to every direction that occurs in the
rotation order. -/
theorem lookup_zip_isSome {order : List Char} {trick : List Card} {lead d : Char}
    (hlen : order.length ≤ trick.length) (hd : d ∈ order) :
    (TrickR.lookup ⟨lead, order.zip trick⟩ d).isSome := by
  have hfind : (List.find? (fun p => decide (p.1 = d)) (order.zip trick)).isSome := by
    rw [List.find?_isSome]
    obtain ⟨i, hi, hget⟩ := List.mem_iff_getElem.mp hd
    have hiz : i < (order.zip trick).length := by
      rw [List.length_zip]; omega
    refine ⟨(order.zip trick)[i], List.getElem_mem hiz, ?_⟩
    rw [List.getElem_zip]
    simp [hget]
  obtain ⟨p, hp⟩ := Option.isSome_iff_exists.mp hfind
  simp [TrickR.lookup, hp]

theorem trickStep_ok (cards : Char → Option Card) (ts : Option Nat)
    (acc : Char × Card) (d : Char) (h : (cards d).isSome) :
    ∃ acc', trickStep cards ts acc d = .ok acc' ∧ (acc'.1 = d ∨ acc' = acc) := by
  rcases hc : cards d with _ | cd
  · rw [hc] at h; exact absurd h (by simp)
  · simp only [trickStep, hc]
    split
    · exact ⟨_, rfl, Or.inl rfl⟩
    split
    · exact ⟨_, rfl, Or.inl rfl⟩
    · exact ⟨_, rfl, Or.inr rfl⟩

theorem foldlM_trickStep_ok (cards : Char → Option Card) (ts : Option Nat) :
    ∀ (sl : List Char) (acc : Char × Card), (∀ d ∈ sl, (cards d).isSome) →
      ∃ r, sl.foldlM (trickStep cards ts) acc = .ok r ∧ (r.1 = acc.1 ∨ r.1 ∈ sl) := by
  intro sl
  induction sl with
  | nil => intro acc _; exact ⟨acc, by simp [List.foldlM_nil, pure, Except.pure], Or.inl rfl⟩
  | cons d sl ih =>
    intro acc hall
    obtain ⟨acc', hstep, hacc'⟩ :=
      trickStep_ok cards ts acc d (hall d (List.mem_cons_self d sl))
    obtain ⟨r, hfold, hr⟩ := ih acc' (fun x hx => hall x (List.mem_cons_of_mem d hx))
    refine ⟨r, ?_, ?_⟩
    · rw [List.foldlM_cons, hstep]
      simpa [bind, Except.bind] using hfold
    · rcases hr with hr | hr
      · rcases hacc' with h1 | h1
        · exact Or.inr (by rw [hr, h1]; exact List.mem_cons_self d sl)
        · exact Or.inl (by rw [hr, h1])
      · exact Or.inr (List.mem_cons_of_mem d hr)

theorem get_trick_winner_ok (cards : Char → Option Card) (leader trump : Char)
    (hl : leader ∈ (['E', 'S', 'W', 'N'] : List Char))
    (ht : trump = 'N' ∨ (SUITMAP trump).isSome)
    (hc : ∀ d ∈ (['E', 'S', 'W', 'N'] : List Char), (cards d).isSome) :
    ∃ w c, get_trick_winner cards leader trump = .ok (w, c) ∧
      w ∈ (['E', 'S', 'W', 'N'] : List Char) := by
  have hts : ∃ ts, trumpSuitOf trump = .ok ts := by
    rcases ht with h | h
    · exact ⟨none, by rw [trumpSuitOf, if_pos h]⟩
    · rcases hs : SUITMAP trump with _ | s
      · rw [hs] at h; exact absurd h (by simp)
      · by_cases hN : trump = 'N'
        · exact ⟨none, by rw [trumpSuitOf, if_pos hN]⟩
        · exact ⟨some s, by rw [trumpSuitOf, if_neg hN, hs]⟩
  obtain ⟨ts, hts⟩ := hts
  rcases htop : cards leader with _ | top
  · have := hc leader hl; rw [htop] at this; exact absurd this (by simp)
  obtain ⟨r, hfold, hr⟩ := foldlM_trickStep_ok cards ts
    ((['E', 'S', 'W', 'N'] : List Char).erase leader) (leader, top)
    (fun d hd => hc d (List.mem_of_mem_erase hd))
  refine ⟨r.1, r.2, ?_, ?_⟩
  · simp only [get_trick_winner, hts, if_pos hl, htop]
    simpa using hfold
  · rcases hr with h | h
    · rw [h]; exact hl
    · exact List.mem_of_mem_erase h

/-- The replay loop succeeds on any sequence of complete four-card tricks
and appends exactly one trick record per input trick. -/
theorem playLoop_complete (declarer : Option Char) (dummy : Char)
    (contract : Token) (tc : Char) (hct : contract.get? 1 = some tc)
    (htc : tc = 'N' ∨ (SUITMAP tc).isSome) :
    ∀ (tricks : List (List Card)) (order : List Char) (play : List TrickR)
      (made : Int), isESWNrot order → (∀ t ∈ tricks, t.length = 4) →
      ∃ p m, playLoop declarer dummy contract tricks order play made = .ok (p, m) ∧
        p.length = play.length + tricks.length := by
  intro tricks
  induction tricks with
  | nil => intro order play made _ _; exact ⟨play, made, rfl, by simp⟩
  | cons trick rest ih =>
    intro order play made hrot hlen
    have h4 : trick.length = 4 := hlen _ (List.mem_cons_self trick rest)
    have hlead : order.headD ' ' ∈ (['E', 'S', 'W', 'N'] : List Char) :=
      isESWNrot_headD_mem hrot
    have hcards : ∀ d ∈ (['E', 'S', 'W', 'N'] : List Char),
        ((TrickR.lookup ⟨order.headD ' ', order.zip trick⟩) d).isSome := by
      intro d hd
      exact lookup_zip_isSome (by rw [isESWNrot_length hrot, h4])
        ((isESWNrot_mem hrot d).mpr hd)
    obtain ⟨w, c, hw, hwm⟩ :=
      get_trick_winner_ok (TrickR.lookup ⟨order.headD ' ', order.zip trick⟩)
        (order.headD ' ') tc hlead htc hcards
    obtain ⟨o', ho', hrot'⟩ := rotate_to_zero_rot hwm
    obtain ⟨p, m, hrec, hplen⟩ :=
      ih o' (play ++ [⟨order.headD ' ', order.zip trick⟩])
        (if some w = declarer ∨ w = dummy then made + 1 else made) hrot'
        (fun t ht => hlen t (List.mem_cons_of_mem trick ht))
    refine ⟨p, m, ?_, ?_⟩
    · simp only [playLoop, if_neg (by omega : ¬ trick.length < 4), hct, hw, ho']
      exact hrec
    · rw [hplen]; simp; omega

/-- C8 amended: play reconstruction imposes no upper bound on the trick
count — for every play blob of complete four-card tricks (with a valid
declarer and a contract whose strain character resolves as a trump), the
replay returns without error a play list containing exactly one entry per
encoded trick, beyond 13 included. -/
theorem c8_no_trick_cap :
    ∀ (tricks : List (List Card)) (declarer : Char) (contract : Token) (tc : Char),
      declarer ∈ (['E', 'S', 'W', 'N'] : List Char) →
      contract.get? 1 = some tc → (tc = 'N' ∨ (SUITMAP tc).isSome) →
      (∀ t ∈ tricks, t.length = 4) →
      ∃ p m, get_play tricks (some declarer) contract = .ok (p, m) ∧
        p.length = tricks.length := by
  intro tricks declarer contract tc hd hct htc hlen
  obtain ⟨o, ho, hrot⟩ := rotate_to_one_rot hd
  obtain ⟨p, m, hloop, hplen⟩ :=
    playLoop_complete (some declarer) (o.getD 1 ' ') contract tc hct htc
      tricks o [] 0 hrot hlen
  refine ⟨p, m, ?_, by simpa using hplen⟩
  simp only [get_play, ho]
  exact hloop

/-- C8 witness: the amended theorem applied to the fourteen-trick blob. -/
theorem c8_no_trick_cap_witness :
    ∃ p m, get_play tricks14 (some 'S') ['1', 'S'] = .ok (p, m) ∧
      p.length = tricks14.length :=
  c8_no_trick_cap tricks14 'S' ['1', 'S'] 'S' (by decide) (by decide)
    (Or.inr (by decide)) (by decide)


/-- The removal loop of `get_initial_hands` succeeds exactly by taking the
removed cards out of the deck: on success the deck is a permutation of the
removed cards followed by the remainder. -/
theorem removeAll_perm :
    ∀ (cs deck rest : List Card), removeAll deck cs = some rest →
      deck.Perm (cs ++ rest) := by
  intro cs
  induction cs with
  | nil =>
    intro deck rest h
    rw [removeAll] at h
    cases h
    simp
  | cons c cs ih =>
    intro deck rest h
    rw [removeAll] at h
    split at h
    · have h1 : deck.Perm (c :: deck.erase c) := List.perm_cons_erase (by assumption)
      exact h1.trans ((ih (deck.erase c) rest h).cons c)
    · exact absurd h (by simp)

/-- The 52-card deck contains no duplicates. -/
theorem full_hand_nodup : full_hand.cards.Nodup := by decide

/-- C2: whenever `get_initial_hands` succeeds, the four returned hands are
pairwise disjoint, their union is exactly the 52-card deck, and the fourth
(East) hand is precisely the deck minus the cards of the three explicitly
encoded hands. -/
theorem c2_deck_partition :
    ∀ (lin : Lin) (HS HW HN HE : Hand),
      get_initial_hands lin = .ok (some (HS, HW, HN, HE)) →
      (HS.cards.Disjoint HW.cards ∧ HS.cards.Disjoint HN.cards ∧
        HS.cards.Disjoint HE.cards ∧ HW.cards.Disjoint HN.cards ∧
        HW.cards.Disjoint HE.cards ∧ HN.cards.Disjoint HE.cards) ∧
      (∀ c : Card, (c ∈ HS.cards ∨ c ∈ HW.cards ∨ c ∈ HN.cards ∨ c ∈ HE.cards) ↔
        c ∈ full_hand.cards) ∧
      (∀ c : Card, c ∈ HE.cards ↔
        (c ∈ full_hand.cards ∧ c ∉ HS.cards ∧ c ∉ HW.cards ∧ c ∉ HN.cards)) := by
  intro lin HS HW HN HE h
  rcases hmd : lin.md with _ | ⟨d, hS, hW, hN⟩
  · rw [get_initial_hands, hmd] at h
    exact absurd h (by simp)
  · simp only [get_initial_hands, hmd] at h
    rcases hra : removeAll full_hand.cards (hS ++ hW ++ hN) with _ | hE
    · rw [hra] at h; exact absurd h (by simp)
    · rw [hra] at h
      simp only [Except.ok.injEq, Option.some.injEq, Prod.mk.injEq] at h
      obtain ⟨h1, h2, h3, h4⟩ := h
      subst h1; subst h2; subst h3; subst h4
      have hperm : full_hand.cards.Perm ((hS ++ hW ++ hN) ++ hE) :=
        removeAll_perm _ _ _ hra
      have hnd : ((hS ++ hW ++ hN) ++ hE).Nodup :=
        hperm.nodup_iff.mp full_hand_nodup
      have hmem : ∀ c : Card, c ∈ full_hand.cards ↔ c ∈ (hS ++ hW ++ hN) ++ hE :=
        fun c => hperm.mem_iff
      rw [List.nodup_append] at hnd
      obtain ⟨hnd1, hndE, hdisjE⟩ := hnd
      rw [List.nodup_append] at hnd1
      obtain ⟨hnd12, hndN, hdisj12N⟩ := hnd1
      rw [List.nodup_append] at hnd12
      obtain ⟨hndS, hndW, hdisjSW⟩ := hnd12
      refine ⟨⟨?_, ?_, ?_, ?_, ?_, ?_⟩, ?_, ?_⟩
      · exact hdisjSW
      · intro c hcS hcN
        exact hdisj12N (by simp [hcS]) hcN
      · intro c hcS hcE
        exact hdisjE (by simp [hcS]) hcE
      · intro c hcW hcN
        exact hdisj12N (by simp [hcW]) hcN
      · intro c hcW hcE
        exact hdisjE (by simp [hcW]) hcE
      · intro c hcN hcE
        exact hdisjE (by simp [hcN]) hcE
      · intro c
        rw [hmem c]
        simp [List.mem_append]
      · intro c
        constructor
        · intro hcE
          refine ⟨(hmem c).mpr (by simp [hcE]), ?_, ?_, ?_⟩
          · intro hcS; exact hdisjE (by simp [hcS]) hcE
          · intro hcW; exact hdisjE (by simp [hcW]) hcE
          · intro hcN; exact hdisjE (by simp [hcN]) hcE
        · rintro ⟨hcd, hcS, hcW, hcN⟩
          have := (hmem c).mp hcd
          simp [List.mem_append] at this
          tauto

/-- C2 witness: the partition property at a record whose three explicit
hands are empty, so that East is the whole deck. -/
theorem c2_deck_partition_witness :
    (⟨0, 2⟩ : Card) ∈ (Hand.mk full_hand.cards).cards ↔
      ((⟨0, 2⟩ : Card) ∈ full_hand.cards ∧ (⟨0, 2⟩ : Card) ∉ ([] : List Card) ∧
        (⟨0, 2⟩ : Card) ∉ ([] : List Card) ∧ (⟨0, 2⟩ : Card) ∉ ([] : List Card)) :=
  (c2_deck_partition linEmptyHands ⟨[]⟩ ⟨[]⟩ ⟨[]⟩ ⟨full_hand.cards⟩ rfl).2.2 ⟨0, 2⟩


/-! ### Claim C3: the trick-winner scan against the spec rule -/

/-- Each step of the source scan (strict `if`/`elif`) agrees with the
spec's single disjunctive beats-rule. -/
theorem trickStep_eq_spec (cards : Char → Option Card) (ts : Option Nat)
    (acc : Char × Card) (d : Char) (cd : Card) (hc : cards d = some cd) :
    trickStep cards ts acc d = .ok (if specBeats ts acc.2 cd then (d, cd) else acc) := by
  simp only [trickStep, hc]
  by_cases h1 : cd.suit = acc.2.suit ∧ acc.2.rank < cd.rank
  · rw [if_pos h1, if_pos (show specBeats ts acc.2 cd from Or.inl h1)]
  · rw [if_neg h1]
    by_cases h2 : some cd.suit = ts ∧ ¬ some acc.2.suit = ts
    · rw [if_pos h2, if_pos (show specBeats ts acc.2 cd from Or.inr h2)]
    · rw [if_neg h2, if_neg (show ¬ specBeats ts acc.2 cd by
        rw [specBeats]; tauto)]

/-- The monadic scan of the source equals the pure spec scan when every
scanned direction holds a card. -/
theorem foldlM_trickStep_eq_specScan (cards : Char → Option Card) (ts : Option Nat) :
    ∀ (sl : List Char) (acc : Char × Card), (∀ d ∈ sl, (cards d).isSome) →
      sl.foldlM (trickStep cards ts) acc = .ok (specScan ts cards sl acc) := by
  intro sl
  induction sl with
  | nil => intro acc _; rfl
  | cons d sl ih =>
    intro acc hall
    obtain ⟨cd, hcd⟩ := Option.isSome_iff_exists.mp (hall d (List.mem_cons_self d sl))
    rw [List.foldlM_cons, trickStep_eq_spec cards ts acc d cd hcd]
    have hrest := ih (if specBeats ts acc.2 cd then (d, cd) else acc)
      (fun x hx => hall x (List.mem_cons_of_mem d hx))
    calc (Except.ok (if specBeats ts acc.2 cd then (d, cd) else acc) >>= fun init =>
            List.foldlM (trickStep cards ts) init sl)
        = List.foldlM (trickStep cards ts)
            (if specBeats ts acc.2 cd then (d, cd) else acc) sl := by
          simp [bind, Except.bind]
      _ = .ok (specScan ts cards (d :: sl) acc) := by
          rw [hrest, specScan, specScan, List.foldl_cons, hcd]

/-- With no trump suit, the scan never leaves the led suit and its result
dominates, in rank, every card of that suit it has passed over. -/
theorem specScan_noTrump_invariant (cards : Char → Option Card) :
    ∀ (others : List Char) (acc : Char × Card), cards acc.1 = some acc.2 →
      (∀ d ∈ others, (cards d).isSome) →
      cards (specScan none cards others acc).1 =
          some (specScan none cards others acc).2 ∧
        (specScan none cards others acc).2.suit = acc.2.suit ∧
        acc.2.rank ≤ (specScan none cards others acc).2.rank ∧
        ∀ d ∈ others, ∀ c, cards d = some c → c.suit = acc.2.suit →
          c.rank ≤ (specScan none cards others acc).2.rank := by
  intro others
  induction others with
  | nil =>
    intro acc hacc _
    exact ⟨hacc, rfl, le_refl _, fun d hd => absurd hd (List.not_mem_nil d)⟩
  | cons d rest ih =>
    intro acc hacc hall
    obtain ⟨cd, hcd⟩ := Option.isSome_iff_exists.mp (hall d (List.mem_cons_self d rest))
    have hallr : ∀ x ∈ rest, (cards x).isSome :=
      fun x hx => hall x (List.mem_cons_of_mem d hx)
    have hstep : specScan none cards (d :: rest) acc =
        specScan none cards rest (if specBeats none acc.2 cd then (d, cd) else acc) := by
      rw [specScan, specScan, List.foldl_cons, hcd]
    by_cases hb : specBeats none acc.2 cd
    · have hsuit : cd.suit = acc.2.suit ∧ acc.2.rank < cd.rank := by
        rcases hb with h | h
        · exact h
        · exact absurd h.1 (by simp)
      obtain ⟨h1, h2, h3, h4⟩ := ih (d, cd) hcd hallr
      rw [hstep, if_pos hb]
      refine ⟨h1, ?_, ?_, ?_⟩
      · rw [h2]; exact hsuit.1
      · exact le_of_lt (lt_of_lt_of_le hsuit.2 h3)
      · intro x hx c hcx hcs
        rcases List.mem_cons.mp hx with rfl | hx
        · have : c = cd := by rw [hcx] at hcd; exact Option.some.inj hcd
          rw [this]; exact h3
        · exact h4 x hx c hcx (by rw [hcs, ← hsuit.1])
    · obtain ⟨h1, h2, h3, h4⟩ := ih acc hacc hallr
      rw [hstep, if_neg hb]
      refine ⟨h1, h2, h3, ?_⟩
      intro x hx c hcx hcs
      rcases List.mem_cons.mp hx with rfl | hx
      · have hccd : c = cd := by rw [hcx] at hcd; exact Option.some.inj hcd
        subst hccd
        have : ¬ (c.suit = acc.2.suit ∧ acc.2.rank < c.rank) := by
          intro hcontra; exact hb (Or.inl hcontra)
        have : c.rank ≤ acc.2.rank := by
          rcases Nat.lt_or_ge acc.2.rank c.rank with hlt | hge
          · exact absurd ⟨hcs, hlt⟩ this
          · exact hge
        exact le_trans this h3
      · exact h4 x hx c hcx hcs

/-- C3: `get_trick_winner` computes exactly the winner of the spec's
scanning rule (a card beats the current best when it is in the best's suit
and outranks it, or when it is a trump and the best is not); under
no-trump the returned card is a highest card of the led suit; and the two
concrete example tricks of the spec come out as claimed (West wins under
diamond trump, South under no-trump). -/
theorem c3_trick_winner :
    (∀ (cards : Char → Option Card) (leader trump : Char) (ts : Option Nat)
      (top : Card),
      leader ∈ (['E', 'S', 'W', 'N'] : List Char) →
      trumpSuitOf trump = .ok ts →
      (∀ d ∈ (['E', 'S', 'W', 'N'] : List Char), (cards d).isSome) →
      cards leader = some top →
      get_trick_winner cards leader trump =
        .ok (specScan ts cards ((['E', 'S', 'W', 'N'] : List Char).erase leader)
          (leader, top))) ∧
    (∀ (cards : Char → Option Card) (leader : Char) (top : Card),
      leader ∈ (['E', 'S', 'W', 'N'] : List Char) →
      (∀ d ∈ (['E', 'S', 'W', 'N'] : List Char), (cards d).isSome) →
      cards leader = some top →
      ∃ w wc, get_trick_winner cards leader 'N' = .ok (w, wc) ∧
        cards w = some wc ∧ wc.suit = top.suit ∧
        ∀ d ∈ (['E', 'S', 'W', 'N'] : List Char), ∀ c, cards d = some c →
          c.suit = top.suit → c.rank ≤ wc.rank) ∧
    get_trick_winner exampleTrick 'E' 'D' = .ok ('W', ⟨1, 13⟩) ∧
    get_trick_winner exampleTrick 'E' 'N' = .ok ('S', ⟨0, 14⟩) := by
  have hmain : ∀ (cards : Char → Option Card) (leader trump : Char)
      (ts : Option Nat) (top : Card),
      leader ∈ (['E', 'S', 'W', 'N'] : List Char) →
      trumpSuitOf trump = .ok ts →
      (∀ d ∈ (['E', 'S', 'W', 'N'] : List Char), (cards d).isSome) →
      cards leader = some top →
      get_trick_winner cards leader trump =
        .ok (specScan ts cards ((['E', 'S', 'W', 'N'] : List Char).erase leader)
          (leader, top)) := by
    intro cards leader trump ts top hl hts hcards htop
    simp only [get_trick_winner, hts, if_pos hl, htop]
    exact foldlM_trickStep_eq_specScan cards ts _ (leader, top)
      (fun d hd => hcards d (List.mem_of_mem_erase hd))
  refine ⟨hmain, ?_, by decide, by decide⟩
  intro cards leader top hl hcards htop
  have heq := hmain cards leader 'N' none top hl rfl hcards htop
  obtain ⟨h1, h2, h3, h4⟩ := specScan_noTrump_invariant cards
    ((['E', 'S', 'W', 'N'] : List Char).erase leader) (leader, top) htop
    (fun d hd => hcards d (List.mem_of_mem_erase hd))
  refine ⟨_, _, heq, h1, h2, ?_⟩
  intro d hd c hcd hcs
  by_cases hdl : d = leader
  · have : c = top := by rw [hdl, htop] at hcd; exact (Option.some.inj hcd).symm
    rw [this]; exact h3
  · exact h4 d ((List.mem_erase_of_ne hdl).mpr hd) c hcd hcs

/-- C3 witness: the main equivalence applied to the example trick under
diamond trump. -/
theorem c3_trick_winner_witness :
    get_trick_winner exampleTrick 'E' 'D' =
      .ok (specScan (some 1) exampleTrick
        ((['E', 'S', 'W', 'N'] : List Char).erase 'E') ('E', ⟨0, 2⟩)) :=
  c3_trick_winner.1 exampleTrick 'E' 'D' (some 1) ⟨0, 2⟩ (by decide) (by decide)
    (by decide) (by decide)


/-! ### Claim C10: `Hand.sort` -/

/-- Characterisation of the comparator order: `compare ≤ 0` is equality or
strict lexicographic order on (position of the suit in `sorder`, rank). -/
theorem cmpLe_iff (sorder : List Nat) {x y : Card} :
    cmpLe sorder x y ↔
      (x = y ∨ List.indexOf x.suit sorder < List.indexOf y.suit sorder ∨
        (List.indexOf x.suit sorder = List.indexOf y.suit sorder ∧
          x.rank < y.rank)) := by
  by_cases he : x = y
  · simp [cmpLe, Card.compare, he]
  · by_cases h1 : List.indexOf x.suit sorder < List.indexOf y.suit sorder
    · simp [cmpLe, Card.compare, he, h1]
    · by_cases h2 : List.indexOf x.suit sorder = List.indexOf y.suit sorder ∧
          x.rank < y.rank
      · simp [cmpLe, Card.compare, he, h1, h2]
      · simp [cmpLe, Card.compare, he, h1, h2]

/-- On cards whose suits appear in the suit order, the comparator order is
total. -/
theorem cmpLe_total (sorder : List Nat) {x y : Card}
    (hx : x.suit ∈ sorder) (hy : y.suit ∈ sorder) :
    cmpLe sorder x y ∨ cmpLe sorder y x := by
  rw [cmpLe_iff, cmpLe_iff]
  rcases Nat.lt_trichotomy (List.indexOf x.suit sorder)
      (List.indexOf y.suit sorder) with h | h | h
  · exact Or.inl (Or.inr (Or.inl h))
  · have hsuit : x.suit = y.suit := (List.indexOf_inj hx hy).mp h
    rcases Nat.lt_trichotomy x.rank y.rank with hr | hr | hr
    · exact Or.inl (Or.inr (Or.inr ⟨h, hr⟩))
    · left; left; cases x; cases y; simp_all
    · exact Or.inr (Or.inr (Or.inr ⟨h.symm, hr⟩))
  · exact Or.inr (Or.inr (Or.inl h))

/-- The comparator order is transitive. -/
theorem cmpLe_trans (sorder : List Nat) {x y z : Card}
    (h1 : cmpLe sorder x y) (h2 : cmpLe sorder y z) : cmpLe sorder x z := by
  rw [cmpLe_iff] at h1 h2 ⊢
  rcases h1 with rfl | h1 | ⟨h1a, h1b⟩
  · exact h2
  · rcases h2 with rfl | h2 | ⟨h2a, h2b⟩
    · exact Or.inr (Or.inl h1)
    · exact Or.inr (Or.inl (lt_trans h1 h2))
    · exact Or.inr (Or.inl (by omega))
  · rcases h2 with rfl | h2 | ⟨h2a, h2b⟩
    · exact Or.inr (Or.inr ⟨h1a, h1b⟩)
    · exact Or.inr (Or.inl (by omega))
    · exact Or.inr (Or.inr ⟨by omega, by omega⟩)

/-- `orderedInsert` preserves sortedness given totality against the list's
elements and transitivity through the inserted element. -/
theorem sorted_orderedInsert_local {α : Type} (r : α → α → Prop) [DecidableRel r] :
    ∀ (l : List α) (a : α), List.Sorted r l →
      (∀ b ∈ l, r a b ∨ r b a) →
      (∀ b ∈ l, ∀ c ∈ l, r a b → r b c → r a c) →
      List.Sorted r (List.orderedInsert r a l) := by
  intro l
  induction l with
  | nil => intro a _ _ _; simp
  | cons b t ih =>
    intro a hs ht htr
    rw [List.orderedInsert]
    by_cases hab : r a b
    · rw [if_pos hab, List.sorted_cons]
      refine ⟨?_, hs⟩
      intro x hx
      rcases List.mem_cons.mp hx with rfl | hx
      · exact hab
      · exact htr b (List.mem_cons_self b t) x (List.mem_cons_of_mem b hx) hab
          ((List.sorted_cons.mp hs).1 x hx)
    · rw [if_neg hab]
      obtain ⟨hb, hst⟩ := List.sorted_cons.mp hs
      rw [List.sorted_cons]
      refine ⟨?_, ih a hst
        (fun x hx => ht x (List.mem_cons_of_mem b hx))
        (fun x hx c hc => htr x (List.mem_cons_of_mem b hx) c
          (List.mem_cons_of_mem b hc))⟩
      intro x hx
      rcases (List.mem_orderedInsert r).mp hx with rfl | hx
      · rcases ht b (List.mem_cons_self b t) with h | h
        · exact absurd h hab
        · exact h
      · exact hb x hx

/-- `insertionSort` sorts any list on which the relation is total and
transitivity holds through every element. -/
theorem sorted_insertionSort_local {α : Type} (r : α → α → Prop) [DecidableRel r] :
    ∀ (l : List α), (∀ x ∈ l, ∀ y ∈ l, r x y ∨ r y x) →
      (∀ x ∈ l, ∀ y ∈ l, ∀ z ∈ l, r x y → r y z → r x z) →
      List.Sorted r (List.insertionSort r l) := by
  intro l
  induction l with
  | nil => intro _ _; simp
  | cons a t ih =>
    intro ht htr
    rw [List.insertionSort]
    apply sorted_orderedInsert_local
    · exact ih
        (fun x hx y hy => ht x (List.mem_cons_of_mem a hx) y (List.mem_cons_of_mem a hy))
        (fun x hx y hy z hz => htr x (List.mem_cons_of_mem a hx) y
          (List.mem_cons_of_mem a hy) z (List.mem_cons_of_mem a hz))
    · intro b hb
      exact ht a (List.mem_cons_self a t) b
        (List.mem_cons_of_mem a ((List.perm_insertionSort r t).mem_iff.mp hb))
    · intro b hb c hc
      exact htr a (List.mem_cons_self a t) b
        (List.mem_cons_of_mem a ((List.perm_insertionSort r t).mem_iff.mp hb)) c
        (List.mem_cons_of_mem a ((List.perm_insertionSort r t).mem_iff.mp hc))

/-- C10: `Hand.sort` is non-mutating — viewed as a state transformer the
receiver's post-state is the unchanged receiver — and for a duplicate-free
suit order covering the hand's suits it returns a new `Hand` holding the
same multiset of cards arranged ascending under the comparator order. -/
theorem c10_sort_nonmutating :
    ∀ (h : Hand) (sorder : List Nat),
      (∀ c ∈ h.cards, c.suit ∈ sorder) →
      (h.sortM sorder).2 = h ∧
      ((h.sortM sorder).1.cards).Perm h.cards ∧
      List.Sorted (cmpLe sorder) ((h.sortM sorder).1.cards) := by
  intro h sorder hsv
  refine ⟨rfl, List.perm_insertionSort _ _, ?_⟩
  apply sorted_insertionSort_local
  · intro x hx y hy
    exact cmpLe_total sorder (hsv x hx) (hsv y hy)
  · intro x _ y _ z _ hxy hyz
    exact cmpLe_trans sorder hxy hyz

/-- C10 witness: the sort theorem at a concrete three-card hand under the
standard suit order. -/
theorem c10_sort_nonmutating_witness :
    ((Hand.mk [⟨3, 2⟩, ⟨0, 5⟩, ⟨3, 14⟩]).sortM [0, 1, 2, 3]).2 =
        Hand.mk [⟨3, 2⟩, ⟨0, 5⟩, ⟨3, 14⟩] ∧
      (((Hand.mk [⟨3, 2⟩, ⟨0, 5⟩, ⟨3, 14⟩]).sortM [0, 1, 2, 3]).1.cards).Perm
        [⟨3, 2⟩, ⟨0, 5⟩, ⟨3, 14⟩] ∧
      List.Sorted (cmpLe [0, 1, 2, 3])
        (((Hand.mk [⟨3, 2⟩, ⟨0, 5⟩, ⟨3, 14⟩]).sortM [0, 1, 2, 3]).1.cards) :=
  c10_sort_nonmutating ⟨[⟨3, 2⟩, ⟨0, 5⟩, ⟨3, 14⟩]⟩ [0, 1, 2, 3] (by decide)


/-! ### Claim C1: declarer inference -/

/-- `list.index` finds the first occurrence. -/
theorem indexOf_spec {α : Type} [DecidableEq α] :
    ∀ (l : List α) (a : α), a ∈ l →
      List.indexOf a l < l.length ∧ l.get? (List.indexOf a l) = some a ∧
        ∀ j < List.indexOf a l, l.get? j ≠ some a := by
  intro l
  induction l with
  | nil => intro a ha; exact absurd ha (List.not_mem_nil a)
  | cons x xs ih =>
    intro a ha
    rw [List.indexOf_cons]
    by_cases hx : x = a
    · simp [hx]
    · have hbeq : (x == a) = false := by simp [hx]
      rw [hbeq, cond_false]
      have hmem : a ∈ xs := by
        rcases List.mem_cons.mp ha with rfl | h
        · exact absurd rfl hx
        · exact h
      obtain ⟨h1, h2, h3⟩ := ih a hmem
      refine ⟨by simpa using Nat.succ_lt_succ h1, by simpa using h2, ?_⟩
      intro j hj
      cases j with
      | zero => simp [hx]
      | succ j =>
        intro hc
        exact h3 j (by omega) (by simpa using hc)

/-- `rindex` finds the last occurrence: the element is there, and no later
position holds it. -/
theorem rindex_spec {α : Type} [DecidableEq α] (l : List α) (a : α) (h : a ∈ l) :
    ∃ m, rindex l a = some m ∧ m < l.length ∧ l.get? m = some a ∧
      ∀ k, m < k → k < l.length → l.get? k ≠ some a := by
  have hrev : a ∈ l.reverse := List.mem_reverse.mpr h
  obtain ⟨h1, h2, h3⟩ := indexOf_spec l.reverse a hrev
  rw [List.length_reverse] at h1
  refine ⟨l.length - List.indexOf a l.reverse - 1, ?_, by omega, ?_, ?_⟩
  · rw [rindex]
    rw [if_pos (by rw [List.length_reverse]; omega)]
  · rw [List.get?_reverse (by omega)] at h2
    have heq : l.length - 1 - List.indexOf a l.reverse =
        l.length - List.indexOf a l.reverse - 1 := by omega
    rw [heq] at h2
    exact h2
  · intro k hk1 hk2 hc
    have hget : l.reverse.get? (l.length - 1 - k) = l.get? k := by
      rw [List.get?_reverse (by omega)]
      congr 1
      omega
    exact h3 (l.length - 1 - k) (by omega) (by rw [hget]; exact hc)

/-- Length of the backward two-step slice. -/
theorem sliceBackTwo_length {α : Type} (l : List α) :
    ∀ i, i < l.length → (sliceBackTwo l i).length = i / 2 + 1 := by
  intro i
  induction i using Nat.strong_induction_on with
  | _ i ih =>
    intro hi
    match i with
    | 0 =>
      rcases hg : l.get? 0 with _ | x
      · exact absurd (List.get?_eq_none.mp hg) (by omega)
      · simp only [sliceBackTwo]
        rw [hg]
        rfl
    | 1 =>
      rcases hg : l.get? 1 with _ | x
      · exact absurd (List.get?_eq_none.mp hg) (by omega)
      · simp only [sliceBackTwo]
        rw [hg]
        rfl
    | (j + 2) =>
      rcases hg : l.get? (j + 2) with _ | x
      · exact absurd (List.get?_eq_none.mp hg) (by omega)
      · have hrec := ih j (by omega) (by omega)
        simp only [sliceBackTwo]
        rw [hg, List.length_cons, hrec]
        omega

/-- Entry `k` of the backward two-step slice from position `i` is entry
`i - 2k` of the underlying list. -/
theorem sliceBackTwo_get? {α : Type} (l : List α) :
    ∀ i k, i < l.length → 2 * k ≤ i →
      (sliceBackTwo l i).get? k = l.get? (i - 2 * k) := by
  intro i
  induction i using Nat.strong_induction_on with
  | _ i ih =>
    intro k hi hk
    match i with
    | 0 =>
      have hk0 : k = 0 := by omega
      subst hk0
      rcases hg : l.get? 0 with _ | x
      · exact absurd (List.get?_eq_none.mp hg) (by omega)
      · simp only [sliceBackTwo]
        rw [hg]
        rfl
    | 1 =>
      have hk0 : k = 0 := by omega
      subst hk0
      rcases hg : l.get? 1 with _ | x
      · exact absurd (List.get?_eq_none.mp hg) (by omega)
      · simp only [sliceBackTwo]
        rw [hg]
        rfl
    | (j + 2) =>
      rcases hg : l.get? (j + 2) with _ | x
      · exact absurd (List.get?_eq_none.mp hg) (by omega)
      · cases k with
        | zero =>
          simp only [sliceBackTwo]
          rw [hg, show j + 2 - 2 * 0 = j + 2 by omega, hg]
          rfl
        | succ k =>
          have hrec := ih j (by omega) k (by omega) (by omega)
          have harith : j + 2 - 2 * (k + 1) = j - 2 * k := by omega
          simp only [sliceBackTwo]
          rw [hg, List.get?_cons_succ, harith]
          exact hrec

/-- On a list of nonempty tokens, the `get_snd` map never raises and
computes the second character (or `None`). -/
theorem mapM_get_snd :
    ∀ (bids : List Token), (∀ t ∈ bids, t ≠ []) →
      bids.mapM get_snd = .ok (bids.map (fun t => t.get? 1)) := by
  intro bids
  induction bids with
  | nil => intro _; rfl
  | cons t rest ih =>
    intro hne
    have hts : get_snd t = .ok (t.get? 1) := by
      rw [get_snd]
      by_cases h1 : t.length = 1
      · rw [if_pos h1]
        have : t.get? 1 = none := List.get?_eq_none.mpr (by omega)
        rw [this]
      · rw [if_neg h1]
        rcases hg : t.get? 1 with _ | c
        · exfalso
          have := List.get?_eq_none.mp hg
          have ht0 : t.length = 0 := by omega
          exact hne t (List.mem_cons_self t rest) (List.eq_nil_of_length_eq_zero ht0)
        · rfl
    rw [List.mapM_cons, hts, ih (fun x hx => hne x (List.mem_cons_of_mem t hx))]
    rfl

/-- `leastFrom` returns the first satisfying value in its search window. -/
theorem leastFrom_eq_some (pred : Nat → Bool) :
    ∀ (fuel cur p : Nat), cur ≤ p → p < cur + fuel → pred p = true →
      (∀ q, cur ≤ q → q < p → pred q = false) →
      leastFrom pred cur fuel = some p := by
  intro fuel
  induction fuel with
  | zero =>
    intro cur p h1 h2 _ _
    exact absurd h2 (by omega)
  | succ fuel ih =>
    intro cur p h1 h2 hp hmin
    rw [leastFrom]
    by_cases hc : cur = p
    · subst hc
      rw [if_pos hp]
    · have hlt : cur < p := by omega
      rw [if_neg (by simp [hmin cur (le_refl cur) hlt])]
      exact ih (cur + 1) p (by omega) (by omega) hp
        (fun q hq1 hq2 => hmin q (by omega) hq2)

/-- Indexing the rotated direction list. -/
theorem getD_rot (r : Nat) (hr : r ≤ 3) (m : Nat) (hm : m < 4) :
    (PLAYERS.drop r ++ PLAYERS.take r).getD m ' ' = PLAYERS.getD ((r + m) % 4) ' ' := by
  interval_cases r <;> interval_cases m <;> decide

/-- `partner` advances two seats in the direction cycle. -/
theorem partner_getD (m : Nat) (hm : m < 4) :
    partner (PLAYERS.getD m ' ') = PLAYERS.getD ((m + 2) % 4) ' ' := by
  interval_cases m <;> decide

/-- Seat `k` of the auction, read off the rotated `BID_PLAYERS` list,
equals the spec-side `seatAt`. -/
theorem rotation_getD (dealer : Char)
    (hd : dealer ∈ (['E', 'S', 'W', 'N'] : List Char)) (k : Nat) :
    (PLAYERS.drop (List.indexOf dealer (['E', 'S', 'W', 'N'] : List Char)) ++
      PLAYERS.take (List.indexOf dealer (['E', 'S', 'W', 'N'] : List Char))).getD
        (k % 4) ' ' = seatAt dealer k := by
  have hr : List.indexOf dealer (['E', 'S', 'W', 'N'] : List Char) ≤ 3 := by
    fin_cases hd <;> decide
  rw [getD_rot _ hr (k % 4) (Nat.mod_lt _ (by omega))]
  rw [seatAt]
  have harith : (List.indexOf dealer (['E', 'S', 'W', 'N'] : List Char) + k % 4) % 4 =
      (List.indexOf dealer (['E', 'S', 'W', 'N'] : List Char) + k) % 4 := by omega
  rw [harith]
  rfl

/-- The partner of the seat `k` places after the dealer sits `k + 2`
places after the dealer. -/
theorem partner_seatAt (dealer : Char) (k : Nat) :
    partner (seatAt dealer k) = seatAt dealer (k + 2) := by
  rw [seatAt, seatAt]
  have hlt : (List.indexOf dealer (['E', 'S', 'W', 'N'] : List Char) + k) % 4 < 4 :=
    Nat.mod_lt _ (by omega)
  have h1 : partner ((['E', 'S', 'W', 'N'] : List Char).getD
      ((List.indexOf dealer (['E', 'S', 'W', 'N'] : List Char) + k) % 4) ' ') =
      PLAYERS.getD
        (((List.indexOf dealer (['E', 'S', 'W', 'N'] : List Char) + k) % 4 + 2) % 4) ' ' :=
    partner_getD _ hlt
  rw [h1]
  have harith : ((List.indexOf dealer (['E', 'S', 'W', 'N'] : List Char) + k) % 4 + 2) % 4 =
      (List.indexOf dealer (['E', 'S', 'W', 'N'] : List Char) + (k + 2)) % 4 := by omega
  rw [harith]
  rfl


/-- C1: for every token sequence with a resolvable contract (some token
does not peel off the end), nonempty tokens, a contract token of length at
least two whose first occurrence is the contract-setting position (as in
any legal auction, where a given bid occurs at most once), and a dealer
direction, `get_bids` resolves and its declarer is exactly the
partnership-parity declarer of the specification: the earliest bid of the
contract partnership whose strain matches the contract's strain decides
between the contract-setter and that player's partner.  In particular the
auction `1H, p, 2H, p, p, p` dealt by South yields contract `2H` with
declarer South. -/
theorem c1_declarer_parity :
    (∀ (bids : List Token) (dealer : Char) (j : Nat) (csuit : Char),
      dealer ∈ (['E', 'S', 'W', 'N'] : List Char) →
      ¬(bids.length = 4 ∧ bids.headD [] = ['p']) →
      bids.reverse.findIdx? (fun t => ! peelable t) = some j →
      (∀ t ∈ bids, t ≠ []) →
      (bids.reverse.getD j []).get? 1 = some csuit →
      List.indexOf (bids.reverse.getD j []) bids = bids.length - 1 - j →
      ∃ d, get_bids bids dealer =
          .res bids d (bids.reverse.getD j []) ((bids.reverse.take j).countP inDR) ∧
        some d = specDeclarer bids dealer (bids.length - 1 - j) csuit) ∧
    (get_bids exampleBids 'S' = .res exampleBids 'S' ['2', 'H'] 0 ∧
      specDeclarer exampleBids 'S' 2 'H' = some 'S') := by
  refine ⟨?_, by decide, by decide⟩
  intro bids dealer j csuit hdealer hnp hfind hne hcs hfirst
  have hjlt : j < bids.length := by
    have h := List.findIdx?_eq_some_iff_findIdx_eq.mp hfind
    rw [List.length_reverse] at h
    exact h.1
  obtain ⟨ctok, hctok⟩ : ∃ x, bids.reverse.get? j = some x := by
    rcases hx : bids.reverse.get? j with _ | x
    · have := List.get?_eq_none.mp hx
      rw [List.length_reverse] at this
      exact absurd this (by omega)
    · exact ⟨x, rfl⟩
  have hcontract_eq : bids.reverse.getD j [] = ctok := by
    rw [List.getD_eq_get?, hctok]
    rfl
  have hget_cpos : bids.get? (bids.length - 1 - j) = some ctok := by
    have hrev := List.get?_reverse (l := bids) (i := j) (by omega)
    rw [hctok] at hrev
    exact hrev.symm
  have hcindex : List.indexOf ctok bids = bids.length - 1 - j := by
    rw [← hcontract_eq]
    exact hfirst
  have hcs2 : ctok.get? 1 = some csuit := by
    rw [← hcontract_eq]
    exact hcs
  have hbp : rotate_to (some dealer) 0 =
      .ok (PLAYERS.drop (List.indexOf dealer (['E', 'S', 'W', 'N'] : List Char)) ++
        PLAYERS.take (List.indexOf dealer (['E', 'S', 'W', 'N'] : List Char))) := by
    simp [rotate_to, hdealer]
  have hcore : get_bids bids dealer = getBidsCore bids
      (PLAYERS.drop (List.indexOf dealer (['E', 'S', 'W', 'N'] : List Char)) ++
        PLAYERS.take (List.indexOf dealer (['E', 'S', 'W', 'N'] : List Char))) := by
    rw [get_bids, hbp]
  rw [hcore]
  simp only [getBidsCore]
  rw [if_neg hnp]
  simp only [hfind]
  rw [hcontract_eq]
  simp only [hcs2, hcindex, mapM_get_snd bids hne]
  have hmaplen : (bids.map (fun t => t.get? 1)).length = bids.length := by simp
  have hcposlt : bids.length - 1 - j < bids.length := by omega
  have hslice_get0 :
      (sliceBackTwo (bids.map fun t => t.get? 1) (bids.length - 1 - j)).get? 0 =
        some (some csuit) := by
    rw [sliceBackTwo_get? _ (bids.length - 1 - j) 0 (by rw [hmaplen]; omega) (by omega)]
    rw [show bids.length - 1 - j - 2 * 0 = bids.length - 1 - j by omega]
    rw [List.get?_map, hget_cpos]
    exact congrArg some hcs2
  obtain ⟨fm, hfm_eq, hfm_lt, hfm_get, hfm_max⟩ :=
    rindex_spec _ _ (List.get?_mem hslice_get0)
  simp only [hfm_eq]
  refine ⟨_, rfl, ?_⟩
  have hslice_len :
      (sliceBackTwo (bids.map fun t => t.get? 1) (bids.length - 1 - j)).length =
        (bids.length - 1 - j) / 2 + 1 :=
    sliceBackTwo_length _ _ (by rw [hmaplen]; omega)
  have h2fm : 2 * fm ≤ bids.length - 1 - j := by
    rw [hslice_len] at hfm_lt
    omega
  have hslice_fm :
      (bids.map fun t => t.get? 1).get? (bids.length - 1 - j - 2 * fm) =
        some (some csuit) := by
    rw [← sliceBackTwo_get? _ _ fm (by rw [hmaplen]; omega) h2fm]
    exact hfm_get
  obtain ⟨ptok, hptok, hpsuit⟩ :
      ∃ t, bids.get? (bids.length - 1 - j - 2 * fm) = some t ∧
        t.get? 1 = some csuit := by
    rw [List.get?_map] at hslice_fm
    rcases hx : bids.get? (bids.length - 1 - j - 2 * fm) with _ | t
    · rw [hx] at hslice_fm
      exact absurd hslice_fm (by simp)
    · rw [hx] at hslice_fm
      exact ⟨t, rfl, by simpa using hslice_fm⟩
  have hpred : (decide ((bids.length - 1 - j - (bids.length - 1 - j - 2 * fm)) % 2 = 0) &&
      decide ((bids.getD (bids.length - 1 - j - 2 * fm) []).get? 1 = some csuit)) = true := by
    simp only [Bool.and_eq_true, decide_eq_true_eq]
    constructor
    · omega
    · rw [List.getD_eq_get?, hptok]
      exact hpsuit
  have hmin : ∀ q, 0 ≤ q → q < bids.length - 1 - j - 2 * fm →
      (decide ((bids.length - 1 - j - q) % 2 = 0) &&
        decide ((bids.getD q []).get? 1 = some csuit)) = false := by
    intro q _ hq
    by_contra hcon
    have hcon2 : (decide ((bids.length - 1 - j - q) % 2 = 0) &&
        decide ((bids.getD q []).get? 1 = some csuit)) = true := by
      cases hb : (decide ((bids.length - 1 - j - q) % 2 = 0) &&
          decide ((bids.getD q []).get? 1 = some csuit)) with
      | false => exact absurd hb hcon
      | true => rfl
    rw [Bool.and_eq_true, decide_eq_true_eq, decide_eq_true_eq] at hcon2
    obtain ⟨heven, hsuitq⟩ := hcon2
    have h2k : 2 * ((bids.length - 1 - j - q) / 2) = bids.length - 1 - j - q := by
      omega
    have hkgt : fm < (bids.length - 1 - j - q) / 2 := by omega
    have hklt : (bids.length - 1 - j - q) / 2 <
        (sliceBackTwo (bids.map fun t => t.get? 1) (bids.length - 1 - j)).length := by
      rw [hslice_len]
      omega
    obtain ⟨tq, htq⟩ : ∃ t, bids.get? q = some t := by
      rcases hx : bids.get? q with _ | t
      · exact absurd (List.get?_eq_none.mp hx) (by omega)
      · exact ⟨t, rfl⟩
    have hsl : (sliceBackTwo (bids.map fun t => t.get? 1)
        (bids.length - 1 - j)).get? ((bids.length - 1 - j - q) / 2) =
          some (some csuit) := by
      rw [sliceBackTwo_get? _ _ _ (by rw [hmaplen]; omega) (by omega)]
      rw [show bids.length - 1 - j - 2 * ((bids.length - 1 - j - q) / 2) = q by omega]
      rw [List.get?_map, htq]
      rw [List.getD_eq_get?, htq] at hsuitq
      simpa using hsuitq
    exact hfm_max _ hkgt hklt hsl
  have hED : earliestStrainPos bids (bids.length - 1 - j) csuit =
      some (bids.length - 1 - j - 2 * fm) := by
    rw [earliestStrainPos]
    exact leastFrom_eq_some _ (bids.length - 1 - j + 1) 0 _ (Nat.zero_le _)
      (by omega) hpred (fun q h1 h2 => hmin q h1 h2)
  simp only [specDeclarer, hED]
  have hturns : (bids.length - 1 - j - (bids.length - 1 - j - 2 * fm)) / 2 = fm := by
    omega
  rw [hturns]
  by_cases hpar : fm % 2 = 0
  · rw [if_pos hpar, if_pos hpar]
    rw [rotation_getD dealer hdealer (bids.length - 1 - j)]
  · rw [if_neg hpar, if_neg hpar]
    have hmod : ((((bids.length - 1 - j : Nat) : Int) - 2) % 4).toNat =
        (bids.length - 1 - j + 2) % 4 := by omega
    rw [hmod, rotation_getD dealer hdealer (bids.length - 1 - j + 2),
      partner_seatAt dealer (bids.length - 1 - j)]

/-- C1 witness: the main theorem applied to the example auction
`1H, p, 2H, p, p, p` dealt by South. -/
theorem c1_declarer_parity_witness :
    ∃ d, get_bids exampleBids 'S' =
        .res exampleBids d (exampleBids.reverse.getD 3 [])
          ((exampleBids.reverse.take 3).countP inDR) ∧
      some d = specDeclarer exampleBids 'S' (exampleBids.length - 1 - 3) 'H' :=
  c1_declarer_parity.1 exampleBids 'S' 3 'H' (by decide) (by decide) (by decide)
    (by decide) (by decide) (by decide)

end Bridgescape
